import Mathlib

/-!
Shallow embedding of the detection pipeline and timeline segmentation engine
of the Fred_The_Video_Butcher repository.

Numbers: the TypeScript sources compute over IEEE doubles; all constants
involved (1.0, 0.25, 0.5, 0.75, 100) and all sampling instants (multiples of
0.5) are exactly representable, so the arithmetic is embedded over `ℚ`.
The one place where JavaScript number semantics diverge from total rational
arithmetic -- division by an elapsed time of zero, which yields Infinity --
is modelled explicitly with `Option ℚ` (`none` standing for a non-finite
value such as Infinity or NaN).

`crypto.randomUUID()` produces an opaque fresh token for each segment; it is
modelled by an explicit supply `u : ℕ → ℕ` from which the k-th call draws
`u k`.  All geometric reasoning is independent of the supply.
-/

/-- `TimelineManager.MERGE_THRESHOLD`: threshold to group consecutive
detections (1.0 s). -/
def MERGE_THRESHOLD : ℚ := 1

/-- `TimelineManager.SAFETY_PADDING`: padding added around a detection
(0.25 s). -/
def SAFETY_PADDING : ℚ := 1/4

/-- `FPS_SAMPLE_RATE` in `VisionProcessor.analyzeVideo`: 2 samples per
second. -/
def FPS_SAMPLE_RATE : ℚ := 2

/-- `const interval = 1 / FPS_SAMPLE_RATE` in `analyzeVideo`. -/
def interval : ℚ := 1 / FPS_SAMPLE_RATE

/-- The correlation threshold `0.75` of the template-matching variant. -/
def MATCH_THRESHOLD : ℚ := 3/4

/-- The `type` field of `DetectionEvent`. -/
inductive DetectionType
  | menu_start
  | menu_hold
  | menu_end
deriving DecidableEq

/-- `DetectionEvent` from `VisionProcessor.ts`. -/
structure DetectionEvent where
  timestamp : ℚ
  confidence : ℚ
  type : DetectionType
deriving DecidableEq

/-- The `type` field of `TimeRange`. -/
inductive RangeType
  | keep
  | remove
deriving DecidableEq

/-- `TimeRange` from `TimelineManager.ts`.  The `id` field is the opaque
token produced by `crypto.randomUUID()`, modelled as a natural number drawn
from a supply. -/
structure TimeRange where
  id : ℕ
  start : ℚ
  «end» : ℚ
  type : RangeType
deriving DecidableEq

/-- `TimelineState` from `TimelineManager.ts`. -/
structure TimelineState where
  badSegments : List TimeRange
  keepSegments : List TimeRange
  totalDuration : ℚ
deriving DecidableEq

/-- `TimelineManager.createBadSegment`: pad a run and clamp it to
`[0, maxDuration]`.  `uuid` is the token drawn for this segment. -/
def createBadSegment (uuid : ℕ) (start «end» maxDuration : ℚ) : TimeRange :=
  { id := uuid
    start := max 0 (start - SAFETY_PADDING)
    «end» := min maxDuration («end» + SAFETY_PADDING)
    type := RangeType.remove }

/-- The sort step of `TimelineManager.groupDetections`:
`[...events].sort((a, b) => a.timestamp - b.timestamp)`, an ascending stable
sort by timestamp. -/
def sortEvents (events : List DetectionEvent) : List DetectionEvent :=
  events.mergeSort (fun a b => decide (a.timestamp ≤ b.timestamp))

/-- The `for` loop of `TimelineManager.groupDetections`, carrying the
current run `[currentStart, currentEnd]` and the index `k` of the next
uuid to draw from the supply `u`. -/
def groupLoop (u : ℕ → ℕ) (k : ℕ) (duration currentStart currentEnd : ℚ) :
    List DetectionEvent → List TimeRange
  | [] => [createBadSegment (u k) currentStart currentEnd duration]
  | event :: rest =>
    if event.timestamp - currentEnd ≤ MERGE_THRESHOLD then
      groupLoop u k duration currentStart event.timestamp rest
    else
      createBadSegment (u k) currentStart currentEnd duration ::
        groupLoop u (k+1) duration event.timestamp event.timestamp rest

/-- `TimelineManager.groupDetections`: sort the events, then group runs
separated by more than `MERGE_THRESHOLD` into padded bad segments.
The source returns `[]` for empty input before sorting; since the sort of a
list is empty exactly when the list is, matching on the sorted list is the
same test. -/
def groupDetections (u : ℕ → ℕ) (events : List DetectionEvent)
    (duration : ℚ) : List TimeRange :=
  match sortEvents events with
  | [] => []
  | e0 :: rest => groupLoop u 0 duration e0.timestamp e0.timestamp rest

/-- The loop of `TimelineManager.calculateKeepRanges`, including the final
trailing-keep check once the bad segments are exhausted. -/
def keepRangesAux (u : ℕ → ℕ) (k : ℕ) (cursor totalDuration : ℚ) :
    List TimeRange → List TimeRange
  | [] =>
    if cursor < totalDuration then
      [{ id := u k, start := cursor, «end» := totalDuration,
         type := RangeType.keep }]
    else []
  | bad :: rest =>
    if bad.start > cursor then
      { id := u k, start := cursor, «end» := bad.start,
        type := RangeType.keep } ::
        keepRangesAux u (k+1) (max cursor bad.«end») totalDuration rest
    else
      keepRangesAux u k (max cursor bad.«end») totalDuration rest

/-- `TimelineManager.calculateKeepRanges`: invert the bad segments starting
from `cursor = 0`. -/
def calculateKeepRanges (u : ℕ → ℕ) (badSegments : List TimeRange)
    (totalDuration : ℚ) : List TimeRange :=
  keepRangesAux u 0 0 totalDuration badSegments

/-- `TimelineManager.processDetections`: the primary entry point.
`u` and `v` are the uuid supplies consumed by the two phases. -/
def processDetections (u v : ℕ → ℕ) (events : List DetectionEvent)
    (totalDuration : ℚ) : TimelineState :=
  { badSegments := groupDetections u events totalDuration
    keepSegments :=
      calculateKeepRanges v (groupDetections u events totalDuration)
        totalDuration
    totalDuration := totalDuration }

/-- Outcome of the per-frame OpenCV pipeline inside `analyzeVideo`:
either the maximum of the correlation map, or an exception (which the
source catches, logs, and swallows). -/
inductive FrameResult
  | ok (maxVal : ℚ)
  | error
deriving DecidableEq

/-- The detections contributed by one sampled frame: the body of the `try`
block pushes a `menu_hold` event when `maxVal > 0.75`; the `catch` block
contributes nothing and lets the loop continue. -/
def frameDetections (t : ℚ) : FrameResult → List DetectionEvent
  | FrameResult.ok maxVal =>
    if maxVal > MATCH_THRESHOLD then
      [{ timestamp := t, confidence := maxVal * 100,
         type := DetectionType.menu_hold }]
    else []
  | FrameResult.error => []

/-- `ProcessingProgress` from `VisionProcessor.ts`.  The `fps` field is
`Option ℚ`: `none` models a non-finite JavaScript number (Infinity/NaN). -/
structure ProcessingProgress where
  processedFrames : ℕ
  totalFrames : ℕ
  fps : Option ℚ
  currentTimestamp : ℚ
deriving DecidableEq

/-- `Math.round`: round half away from zero toward positive infinity. -/
def jsRound (q : ℚ) : ℤ := ⌊q + 1/2⌋

/-- The fps expression of the HSV-heuristic variant
(`VisionProcessor.ts`): `elapsed > 0 ? Math.round(frameCount / elapsed) : 0`. -/
def fpsHSV (frameCount : ℕ) (elapsed : ℚ) : Option ℚ :=
  if elapsed > 0 then some (jsRound ((frameCount : ℚ) / elapsed) : ℚ)
  else some 0

/-- The fps expression of the template-matching variant:
`Math.round(frameCount / elapsed)` with no guard.  When `elapsed = 0`
JavaScript divides by zero and `Math.round` returns a non-finite value,
modelled as `none`. -/
def fpsTemplate (frameCount : ℕ) (elapsed : ℚ) : Option ℚ :=
  if elapsed = 0 then none
  else some (jsRound ((frameCount : ℚ) / elapsed) : ℚ)

/-- The `processLoop` of `analyzeVideo` (both variants share this shape):
starting at `currentTime = t` with `frameCount` frames already processed,
each iteration matches the frame at `t`, increments the frame count, emits
one `ProcessingProgress`, and advances `currentTime` by `interval`; the
loop stops as soon as `currentTime ≥ duration`.  `frame` gives the
per-frame matching outcome, `fpsOf` the variant's fps expression, and
`elapsed` the wall-clock seconds observed at the k-th emission. -/
def processLoop (frame : ℚ → FrameResult) (fpsOf : ℕ → ℚ → Option ℚ)
    (elapsed : ℕ → ℚ) (total : ℕ) (duration t : ℚ) (frameCount : ℕ) :
    List DetectionEvent × List ProcessingProgress :=
  if t ≥ duration then ([], [])
  else
    let ds := frameDetections t (frame t)
    let fc := frameCount + 1
    let p : ProcessingProgress :=
      { processedFrames := fc, totalFrames := total,
        fps := fpsOf fc (elapsed fc), currentTimestamp := t }
    let rest := processLoop frame fpsOf elapsed total duration (t + interval) fc
    (ds ++ rest.1, p :: rest.2)
termination_by (⌈(duration - t) * FPS_SAMPLE_RATE⌉).toNat
decreasing_by
  have key : (duration - (t + interval)) * FPS_SAMPLE_RATE
      = (duration - t) * FPS_SAMPLE_RATE - 1 := by
    simp only [interval, FPS_SAMPLE_RATE]; ring
  have hlt : t < duration := lt_of_not_ge (by assumption)
  have hpos : 0 < ⌈(duration - t) * FPS_SAMPLE_RATE⌉ := by
    apply Int.ceil_pos.mpr
    simp only [FPS_SAMPLE_RATE]
    nlinarith [hlt]
  rw [key, Int.ceil_sub_one]
  omega

/-- Failure modes that reject the `analyzeVideo` promise before the
sampling loop starts. -/
inductive AnalysisError
  | referenceLoadFailed
  | noCanvasContext
  | videoLoadError
deriving DecidableEq

/-- `analyzeVideo` (template-matching variant): a setup failure (canvas
context, reference image, video load) rejects with one terminal error;
otherwise the sampling loop runs to completion from `currentTime = 0`,
`frameCount = 0`, with `totalFramesToScan = Math.floor(duration *
FPS_SAMPLE_RATE)`, and the promise resolves with the accumulated
detections. -/
def analyzeVideo (setup : Option AnalysisError) (frame : ℚ → FrameResult)
    (fpsOf : ℕ → ℚ → Option ℚ) (elapsed : ℕ → ℚ) (duration : ℚ) :
    Except AnalysisError (List DetectionEvent) :=
  match setup with
  | some e => Except.error e
  | none =>
    Except.ok
      (processLoop frame fpsOf elapsed (⌊duration * FPS_SAMPLE_RATE⌋).toNat
        duration 0 0).1

/-- Membership of an instant in the half-open span of a segment; used to
state the coverage invariant pointwise. -/
def inSeg (x : ℚ) (s : TimeRange) : Bool :=
  decide (s.start ≤ x) && decide (x < s.«end»)

/-- Length of a segment. -/
def segLen (s : TimeRange) : ℚ := s.«end» - s.start

/-- Total length of a list of segments. -/
def totalLen (l : List TimeRange) : ℚ := (l.map segLen).sum

/-- The geometry of a segment: everything except the opaque uuid. -/
def geom (s : TimeRange) : ℚ × ℚ × RangeType := (s.start, s.«end», s.type)

/-! ### Segment Builder lemmas -/

/-- `groupLoop` always returns at least one segment, and the first segment's
start is the padded, clamped start of the current run. -/
theorem groupLoop_cons (u : ℕ → ℕ) (D : ℚ) (evs : List DetectionEvent) :
    ∀ k cs ce, ∃ s l', groupLoop u k D cs ce evs = s :: l' ∧
      s.start = max 0 (cs - SAFETY_PADDING) := by
  induction evs with
  | nil => intro k cs ce; exact ⟨_, _, rfl, rfl⟩
  | cons e rest ih =>
    intro k cs ce
    by_cases h : e.timestamp - ce ≤ MERGE_THRESHOLD
    · obtain ⟨s, l', hl, hs⟩ := ih k cs e.timestamp
      exact ⟨s, l', by simp only [groupLoop, if_pos h, hl], hs⟩
    · exact ⟨createBadSegment (u k) cs ce D,
        groupLoop u (k+1) D e.timestamp e.timestamp rest,
        by simp only [groupLoop, if_neg h], rfl⟩

/-- Consecutive segments emitted by `groupLoop` are strictly separated:
each segment ends strictly before the next one starts.  This needs no
hypothesis at all: a run break means the gap exceeds `MERGE_THRESHOLD =
1 > 2 · SAFETY_PADDING = 1/2`. -/
theorem groupLoop_chain (u : ℕ → ℕ) (D : ℚ) (evs : List DetectionEvent) :
    ∀ k cs ce,
      List.Chain' (fun A B => A.«end» < B.start) (groupLoop u k D cs ce evs) := by
  induction evs with
  | nil => intro k cs ce; simp [groupLoop]
  | cons e rest ih =>
    intro k cs ce
    by_cases h : e.timestamp - ce ≤ MERGE_THRESHOLD
    · simpa only [groupLoop, if_pos h] using ih k cs e.timestamp
    · simp only [groupLoop, if_neg h]
      obtain ⟨s, l', hl, hs⟩ := groupLoop_cons u D rest (k+1) e.timestamp e.timestamp
      rw [hl]
      refine List.chain'_cons.mpr ⟨?_, by rw [← hl]; exact ih (k+1) e.timestamp e.timestamp⟩
      have hgap : MERGE_THRESHOLD < e.timestamp - ce := lt_of_not_ge h
      have h1 : (createBadSegment (u k) cs ce D).«end» ≤ ce + SAFETY_PADDING :=
        min_le_right _ _
      have h2 : e.timestamp - SAFETY_PADDING ≤ s.start := by
        rw [hs]; exact le_max_right _ _
      have h3 : ce + SAFETY_PADDING < e.timestamp - SAFETY_PADDING := by
        simp only [MERGE_THRESHOLD, SAFETY_PADDING] at hgap ⊢
        linarith
      exact lt_of_le_of_lt h1 (lt_of_lt_of_le h3 h2)

/-- Bounds invariant: with all remaining timestamps in `[ce, D]` and a run
`[cs, ce] ⊆ [0, D]`, every emitted segment lies in `[0, D]` and has
nonnegative width. -/
theorem groupLoop_bounds (u : ℕ → ℕ) (D : ℚ) (evs : List DetectionEvent) :
    ∀ k cs ce, 0 ≤ cs → cs ≤ ce → ce ≤ D →
      (∀ e ∈ evs, ce ≤ e.timestamp ∧ e.timestamp ≤ D) →
      evs.Pairwise (fun a b => a.timestamp ≤ b.timestamp) →
      ∀ s ∈ groupLoop u k D cs ce evs,
        0 ≤ s.start ∧ s.start ≤ s.«end» ∧ s.«end» ≤ D := by
  induction evs with
  | nil =>
    intro k cs ce h0 hsce hceD _ _ s hs
    simp only [groupLoop, List.mem_singleton] at hs
    subst hs
    refine ⟨le_max_left _ _, ?_, min_le_left _ _⟩
    simp only [createBadSegment, SAFETY_PADDING]
    rw [max_le_iff, le_min_iff, le_min_iff]
    constructor
    · constructor <;> linarith
    · constructor <;> linarith
  | cons e rest ih =>
    intro k cs ce h0 hsce hceD hevs hpw s hs
    have hets := hevs e (List.mem_cons_self e rest)
    have hrest : ∀ f ∈ rest, e.timestamp ≤ f.timestamp :=
      fun f hf => List.rel_of_pairwise_cons hpw hf
    by_cases h : e.timestamp - ce ≤ MERGE_THRESHOLD
    · rw [groupLoop, if_pos h] at hs
      exact ih k cs e.timestamp h0 (le_trans hsce hets.1) hets.2
        (fun f hf => ⟨hrest f hf, (hevs f (List.mem_cons_of_mem e hf)).2⟩)
        (List.Pairwise.of_cons hpw) s hs
    · rw [groupLoop, if_neg h] at hs
      rcases List.mem_cons.mp hs with hs | hs
      · subst hs
        refine ⟨le_max_left _ _, ?_, min_le_left _ _⟩
        simp only [createBadSegment, SAFETY_PADDING]
        rw [max_le_iff, le_min_iff, le_min_iff]
        constructor
        · constructor <;> linarith
        · constructor <;> linarith
      · exact ih (k+1) e.timestamp e.timestamp
          (le_trans h0 (le_trans hsce hets.1)) le_rfl hets.2
          (fun f hf => ⟨hrest f hf, (hevs f (List.mem_cons_of_mem e hf)).2⟩)
          (List.Pairwise.of_cons hpw) s hs

/-- Every event handed to `groupLoop`, and every point of the current run
`[cs, ce]`, ends up inside some emitted segment. -/
theorem groupLoop_covers (u : ℕ → ℕ) (D : ℚ) (evs : List DetectionEvent) :
    ∀ k cs ce, 0 ≤ cs → cs ≤ ce → ce ≤ D →
      (∀ e ∈ evs, ce ≤ e.timestamp ∧ e.timestamp ≤ D) →
      evs.Pairwise (fun a b => a.timestamp ≤ b.timestamp) →
      (∀ x, cs ≤ x → x ≤ ce →
        ∃ s ∈ groupLoop u k D cs ce evs, s.start ≤ x ∧ x ≤ s.«end») ∧
      (∀ e ∈ evs,
        ∃ s ∈ groupLoop u k D cs ce evs,
          s.start ≤ e.timestamp ∧ e.timestamp ≤ s.«end») := by
  induction evs with
  | nil =>
    intro k cs ce h0 hsce hceD _ _
    refine ⟨?_, by simp⟩
    intro x hcsx hxce
    refine ⟨createBadSegment (u k) cs ce D, by simp [groupLoop], ?_, ?_⟩
    · simp only [createBadSegment, SAFETY_PADDING]
      rw [max_le_iff]
      constructor <;> linarith
    · simp only [createBadSegment, SAFETY_PADDING]
      rw [le_min_iff]
      constructor <;> linarith
  | cons e rest ih =>
    intro k cs ce h0 hsce hceD hevs hpw
    have hets := hevs e (List.mem_cons_self e rest)
    have hrest : ∀ f ∈ rest, e.timestamp ≤ f.timestamp :=
      fun f hf => List.rel_of_pairwise_cons hpw hf
    by_cases h : e.timestamp - ce ≤ MERGE_THRESHOLD
    · have ihh := ih k cs e.timestamp h0 (le_trans hsce hets.1) hets.2
        (fun f hf => ⟨hrest f hf, (hevs f (List.mem_cons_of_mem e hf)).2⟩)
        (List.Pairwise.of_cons hpw)
      rw [groupLoop, if_pos h]
      refine ⟨fun x hx hx' => ihh.1 x hx (le_trans hx' hets.1), ?_⟩
      intro f hf
      rcases List.mem_cons.mp hf with hf | hf
      · subst hf; exact ihh.1 f.timestamp (le_trans hsce hets.1) le_rfl
      · exact ihh.2 f hf
    · have hets1 : cs ≤ e.timestamp := le_trans hsce hets.1
      have ihh := ih (k+1) e.timestamp e.timestamp (le_trans h0 hets1) le_rfl
        hets.2
        (fun f hf => ⟨hrest f hf, (hevs f (List.mem_cons_of_mem e hf)).2⟩)
        (List.Pairwise.of_cons hpw)
      rw [groupLoop, if_neg h]
      constructor
      · intro x hx hx'
        refine ⟨createBadSegment (u k) cs ce D, List.mem_cons_self _ _, ?_, ?_⟩
        · simp only [createBadSegment, SAFETY_PADDING]
          rw [max_le_iff]
          constructor <;> linarith
        · simp only [createBadSegment, SAFETY_PADDING]
          rw [le_min_iff]
          constructor <;> linarith
      · intro f hf
        rcases List.mem_cons.mp hf with hf | hf
        · subst hf
          obtain ⟨s, hsmem, hs1, hs2⟩ := ihh.1 f.timestamp le_rfl le_rfl
          exact ⟨s, List.mem_cons_of_mem _ hsmem, hs1, hs2⟩
        · obtain ⟨s, hsmem, hs1, hs2⟩ := ihh.2 f hf
          exact ⟨s, List.mem_cons_of_mem _ hsmem, hs1, hs2⟩

/-- The geometry (start, end, type) of the segments emitted by `groupLoop`
does not depend on the uuid supply or on the draw index. -/
theorem groupLoop_geom (u v : ℕ → ℕ) (D : ℚ) (evs : List DetectionEvent) :
    ∀ k1 k2 cs ce,
      (groupLoop u k1 D cs ce evs).map geom
        = (groupLoop v k2 D cs ce evs).map geom := by
  induction evs with
  | nil => intro k1 k2 cs ce; simp [groupLoop, geom, createBadSegment]
  | cons e rest ih =>
    intro k1 k2 cs ce
    by_cases h : e.timestamp - ce ≤ MERGE_THRESHOLD
    · simpa only [groupLoop, if_pos h] using ih k1 k2 cs e.timestamp
    · simp only [groupLoop, if_neg h, List.map_cons]
      rw [ih (k1+1) (k2+1) e.timestamp e.timestamp]
      rfl

/-- From the strict chain and nonnegative widths, all (not just adjacent)
pairs of emitted segments are ordered: earlier end ≤ later start. -/
theorem chainLe_pairwise :
    ∀ l : List TimeRange, (∀ s ∈ l, s.start ≤ s.«end») →
      List.Chain' (fun A B => A.«end» ≤ B.start) l →
      List.Pairwise (fun A B => A.«end» ≤ B.start) l := by
  have aux : ∀ (l : List TimeRange) (a : TimeRange),
      (∀ s ∈ l, s.start ≤ s.«end») →
      List.Chain' (fun A B => A.«end» ≤ B.start) (a :: l) →
      ∀ b ∈ l, a.«end» ≤ b.start := by
    intro l
    induction l with
    | nil => intro a _ _ b hb; simp at hb
    | cons c l' ih =>
      intro a hw hc b hb
      have hac : a.«end» ≤ c.start := (List.chain'_cons.mp hc).1
      rcases List.mem_cons.mp hb with hb | hb
      · subst hb; exact hac
      · have hcb : c.«end» ≤ b.start :=
          ih c (fun s hs => hw s (List.mem_cons_of_mem _ hs))
            (List.chain'_cons.mp hc).2 b hb
        exact le_trans hac
          (le_trans (hw c (List.mem_cons_self _ _)) hcb)
  intro l
  induction l with
  | nil => intro _ _; exact List.Pairwise.nil
  | cons a l' ih =>
    intro hw hc
    exact List.Pairwise.cons
      (aux l' a (fun s hs => hw s (List.mem_cons_of_mem _ hs)) hc)
      (ih (fun s hs => hw s (List.mem_cons_of_mem _ hs)) hc.tail)

/-! ### Segment Inverter lemmas -/

/-- `inSeg` unfolded. -/
theorem inSeg_eq_true {x : ℚ} {s : TimeRange} :
    inSeg x s = true ↔ s.start ≤ x ∧ x < s.«end» := by
  simp [inSeg]

/-- A point left of a segment is not in it. -/
theorem not_inSeg_left {x : ℚ} {s : TimeRange} (h : x < s.start) :
    ¬ inSeg x s = true := by
  simp only [inSeg_eq_true]
  rintro ⟨h1, h2⟩
  linarith

/-- A point at or past a segment's end is not in it. -/
theorem not_inSeg_right {x : ℚ} {s : TimeRange} (h : s.«end» ≤ x) :
    ¬ inSeg x s = true := by
  simp only [inSeg_eq_true]
  rintro ⟨h1, h2⟩
  linarith

/-- Every keep segment produced by `keepRangesAux` starts at or after the
cursor and has strictly positive width.  No hypotheses are needed: both
emissions are guarded by a strict comparison. -/
theorem keepRangesAux_mem (v : ℕ → ℕ) (D : ℚ) :
    ∀ (bads : List TimeRange) (k : ℕ) (c : ℚ),
      ∀ s ∈ keepRangesAux v k c D bads,
        c ≤ s.start ∧ s.start < s.«end» ∧ s.type = RangeType.keep := by
  intro bads
  induction bads with
  | nil =>
    intro k c s hs
    by_cases h : c < D
    · simp only [keepRangesAux, if_pos h, List.mem_singleton] at hs
      subst hs
      exact ⟨le_rfl, h, rfl⟩
    · simp only [keepRangesAux, if_neg h, List.not_mem_nil] at hs
  | cons bad rest ih =>
    intro k c s hs
    by_cases h : bad.start > c
    · simp only [keepRangesAux, if_pos h, List.mem_cons] at hs
      rcases hs with hs | hs
      · subst hs; exact ⟨le_rfl, h, rfl⟩
      · obtain ⟨h1, h2, h3⟩ := ih (k+1) (max c bad.«end») s hs
        exact ⟨le_trans (le_max_left _ _) h1, h2, h3⟩
    · simp only [keepRangesAux, if_neg h] at hs
      obtain ⟨h1, h2, h3⟩ := ih k (max c bad.«end») s hs
      exact ⟨le_trans (le_max_left _ _) h1, h2, h3⟩

/-- Pointwise exact coverage: under the segment-builder invariants on the
bad segments, every instant of `[c, D)` lies in exactly one segment of
`bads ++ keepRangesAux v k c D bads`. -/
theorem cover_aux (v : ℕ → ℕ) (D : ℚ) :
    ∀ (bads : List TimeRange) (k : ℕ) (c : ℚ),
      0 ≤ c → c ≤ D →
      (∀ b ∈ bads, c ≤ b.start ∧ b.start ≤ b.«end» ∧ b.«end» ≤ D) →
      List.Pairwise (fun A B => A.«end» ≤ B.start) bads →
      ∀ x : ℚ, c ≤ x → x < D →
        (bads ++ keepRangesAux v k c D bads).countP (inSeg x) = 1 := by
  intro bads
  induction bads with
  | nil =>
    intro k c h0 hcD hb hpw x hcx hxD
    have hcD' : c < D := lt_of_le_of_lt hcx hxD
    simp only [keepRangesAux, if_pos hcD', List.nil_append,
      List.countP_cons, List.countP_nil]
    rw [if_pos]
    exact inSeg_eq_true.mpr ⟨hcx, hxD⟩
  | cons bad rest ih =>
    intro k c h0 hcD hb hpw x hcx hxD
    have hbad := hb bad (List.mem_cons_self bad rest)
    have hrest' : ∀ b ∈ rest, bad.«end» ≤ b.start :=
      fun b hb' => List.rel_of_pairwise_cons hpw hb'
    have hbrest : ∀ b ∈ rest, c ≤ b.start ∧ b.start ≤ b.«end» ∧ b.«end» ≤ D :=
      fun b hb' => hb b (List.mem_cons_of_mem _ hb')
    by_cases hcs : bad.start > c
    · have hmax : max c bad.«end» = bad.«end» :=
        max_eq_right (le_trans (le_of_lt hcs) hbad.2.1)
      simp only [keepRangesAux, if_pos hcs, hmax, List.cons_append,
        List.countP_cons, List.countP_append, List.countP_cons]
      by_cases hx1 : x < bad.start
      · rw [List.countP_eq_zero.mpr
            (fun b hb' => not_inSeg_left
              (lt_of_lt_of_le hx1 (le_trans hbad.2.1 (hrest' b hb'))))]
        rw [List.countP_eq_zero.mpr
            (fun s hs => not_inSeg_left (lt_of_lt_of_le hx1
              (le_trans hbad.2.1
                (keepRangesAux_mem v D rest (k+1) bad.«end» s hs).1)))]
        rw [if_pos (inSeg_eq_true.mpr ⟨hcx, hx1⟩),
          if_neg (not_inSeg_left hx1)]
      · by_cases hx2 : x < bad.«end»
        · rw [List.countP_eq_zero.mpr
              (fun b hb' => not_inSeg_left (lt_of_lt_of_le hx2 (hrest' b hb')))]
          rw [List.countP_eq_zero.mpr
              (fun s hs => not_inSeg_left (lt_of_lt_of_le hx2
                (keepRangesAux_mem v D rest (k+1) bad.«end» s hs).1))]
          rw [if_neg (not_inSeg_right (le_of_not_lt hx1)),
            if_pos (inSeg_eq_true.mpr ⟨le_of_not_lt hx1, hx2⟩)]
        · have hxe : bad.«end» ≤ x := le_of_not_lt hx2
          have ihh := ih (k+1) bad.«end»
            (le_trans h0 (le_trans (le_of_lt hcs) hbad.2.1)) hbad.2.2
            (fun b hb' => ⟨hrest' b hb', (hbrest b hb').2⟩)
            (List.Pairwise.of_cons hpw) x hxe hxD
          rw [List.countP_append] at ihh
          rw [if_neg (not_inSeg_right hxe),
            if_neg (not_inSeg_right (le_trans hbad.2.1 hxe))]
          omega
    · have hcse : bad.start ≤ c := le_of_not_lt hcs
      simp only [keepRangesAux, if_neg hcs, List.cons_append,
        List.countP_cons, List.countP_append]
      by_cases hx2 : x < bad.«end»
      · rw [List.countP_eq_zero.mpr
            (fun b hb' => not_inSeg_left (lt_of_lt_of_le hx2 (hrest' b hb')))]
        rw [List.countP_eq_zero.mpr
            (fun s hs => not_inSeg_left (lt_of_lt_of_le hx2
              (le_trans (le_max_right c bad.«end»)
                (keepRangesAux_mem v D rest k (max c bad.«end») s hs).1)))]
        rw [if_pos (inSeg_eq_true.mpr ⟨le_trans hcse hcx, hx2⟩)]
      · have hxe : bad.«end» ≤ x := le_of_not_lt hx2
        have ihh := ih k (max c bad.«end») (le_trans h0 (le_max_left _ _))
          (max_le hcD hbad.2.2)
          (fun b hb' => ⟨max_le (hbrest b hb').1 (hrest' b hb'),
            (hbrest b hb').2⟩)
          (List.Pairwise.of_cons hpw) x (max_le hcx hxe) hxD
        rw [List.countP_append] at ihh
        rw [if_neg (not_inSeg_right hxe)]
        omega

/-- `totalLen` of the empty list. -/
theorem totalLen_nil : totalLen [] = 0 := rfl

/-- `totalLen` of a cons. -/
theorem totalLen_cons (s : TimeRange) (l : List TimeRange) :
    totalLen (s :: l) = segLen s + totalLen l := by
  simp [totalLen]

/-- Length bookkeeping: the bad segments and the keep segments computed
from cursor `c` together measure exactly `D - c`. -/
theorem sum_aux (v : ℕ → ℕ) (D : ℚ) :
    ∀ (bads : List TimeRange) (k : ℕ) (c : ℚ),
      0 ≤ c → c ≤ D →
      (∀ b ∈ bads, c ≤ b.start ∧ b.start ≤ b.«end» ∧ b.«end» ≤ D) →
      List.Pairwise (fun A B => A.«end» ≤ B.start) bads →
      totalLen bads + totalLen (keepRangesAux v k c D bads) = D - c := by
  intro bads
  induction bads with
  | nil =>
    intro k c h0 hcD hb hpw
    by_cases h : c < D
    · simp only [keepRangesAux, if_pos h, totalLen_nil, totalLen_cons, segLen]
      simp
    · have hceq : c = D := le_antisymm hcD (le_of_not_lt h)
      simp only [keepRangesAux, if_neg h, totalLen_nil]
      rw [hceq]
      ring
  | cons bad rest ih =>
    intro k c h0 hcD hb hpw
    have hbad := hb bad (List.mem_cons_self bad rest)
    have hrest' : ∀ b ∈ rest, bad.«end» ≤ b.start :=
      fun b hb' => List.rel_of_pairwise_cons hpw hb'
    have hbrest : ∀ b ∈ rest, c ≤ b.start ∧ b.start ≤ b.«end» ∧ b.«end» ≤ D :=
      fun b hb' => hb b (List.mem_cons_of_mem _ hb')
    by_cases hcs : bad.start > c
    · have hmax : max c bad.«end» = bad.«end» :=
        max_eq_right (le_trans (le_of_lt hcs) hbad.2.1)
      have ihh := ih (k+1) bad.«end»
        (le_trans h0 (le_trans (le_of_lt hcs) hbad.2.1)) hbad.2.2
        (fun b hb' => ⟨hrest' b hb', (hbrest b hb').2⟩)
        (List.Pairwise.of_cons hpw)
      simp only [keepRangesAux, if_pos hcs, hmax, totalLen_cons, segLen]
      linarith
    · have hcse : bad.start = c :=
        le_antisymm (le_of_not_lt hcs) hbad.1
      have hmax : max c bad.«end» = bad.«end» :=
        max_eq_right (hcse ▸ hbad.2.1)
      have ihh := ih k bad.«end»
        (le_trans h0 (hcse ▸ hbad.2.1)) hbad.2.2
        (fun b hb' => ⟨hrest' b hb', (hbrest b hb').2⟩)
        (List.Pairwise.of_cons hpw)
      simp only [keepRangesAux, if_neg hcs, hmax, totalLen_cons, segLen]
      linarith

/-! ### Sorted-events facts -/

/-- The sorted event list is pairwise ordered by timestamp. -/
theorem sortEvents_pairwise (events : List DetectionEvent) :
    (sortEvents events).Pairwise (fun a b => a.timestamp ≤ b.timestamp) := by
  have h := @List.sorted_mergeSort DetectionEvent
    (fun a b : DetectionEvent => decide (a.timestamp ≤ b.timestamp))
    (fun a b c hab hbc => decide_eq_true
      (le_trans (of_decide_eq_true hab) (of_decide_eq_true hbc)))
    (fun a b => by
      simp only [Bool.or_eq_true, decide_eq_true_eq]
      exact le_total a.timestamp b.timestamp)
    events
  exact h.imp (fun hab => of_decide_eq_true hab)

/-- Sorting does not change membership. -/
theorem sortEvents_mem {events : List DetectionEvent} {e : DetectionEvent} :
    e ∈ sortEvents events ↔ e ∈ events :=
  List.mem_mergeSort

/-- Sorting an already-sorted event list is the identity. -/
theorem sortEvents_of_sorted {events : List DetectionEvent}
    (h : events.Pairwise (fun a b => a.timestamp ≤ b.timestamp)) :
    sortEvents events = events :=
  List.mergeSort_of_sorted (h.imp (fun hab => decide_eq_true hab))

/-! ### groupDetections-level lemmas -/

/-- All bad segments produced from events inside `[0, D]` lie inside
`[0, D]` and have nonnegative width. -/
theorem groupDetections_bounds (u : ℕ → ℕ) (events : List DetectionEvent)
    (D : ℚ) (hts : ∀ e ∈ events, 0 ≤ e.timestamp ∧ e.timestamp ≤ D) :
    ∀ s ∈ groupDetections u events D,
      0 ≤ s.start ∧ s.start ≤ s.«end» ∧ s.«end» ≤ D := by
  have hts' : ∀ e ∈ sortEvents events, 0 ≤ e.timestamp ∧ e.timestamp ≤ D :=
    fun e he => hts e (sortEvents_mem.mp he)
  have hpw := sortEvents_pairwise events
  intro s hs
  rcases hse : sortEvents events with _ | ⟨e0, rest⟩
  · simp only [groupDetections, hse, List.not_mem_nil] at hs
  · simp only [groupDetections, hse] at hs
    rw [hse] at hpw hts'
    have he0 := hts' e0 (List.mem_cons_self e0 rest)
    exact groupLoop_bounds u D rest 0 e0.timestamp e0.timestamp
      he0.1 le_rfl he0.2
      (fun f hf => ⟨List.rel_of_pairwise_cons hpw hf,
        (hts' f (List.mem_cons_of_mem _ hf)).2⟩)
      (List.Pairwise.of_cons hpw) s hs

/-- Strict separation of consecutive bad segments, for any input events. -/
theorem groupDetections_chain (u : ℕ → ℕ) (events : List DetectionEvent)
    (D : ℚ) :
    List.Chain' (fun A B => A.«end» < B.start) (groupDetections u events D) := by
  rcases hse : sortEvents events with _ | ⟨e0, rest⟩
  · simp only [groupDetections, hse]
    exact List.chain'_nil
  · simp only [groupDetections, hse]
    exact groupLoop_chain u D rest 0 e0.timestamp e0.timestamp

/-- All pairs of bad segments (in output order) are separated. -/
theorem groupDetections_pairwise (u : ℕ → ℕ) (events : List DetectionEvent)
    (D : ℚ) (hts : ∀ e ∈ events, 0 ≤ e.timestamp ∧ e.timestamp ≤ D) :
    List.Pairwise (fun A B => A.«end» ≤ B.start) (groupDetections u events D) :=
  chainLe_pairwise _
    (fun s hs => (groupDetections_bounds u events D hts s hs).2.1)
    ((groupDetections_chain u events D).imp (fun _ _ h => le_of_lt h))

/-- Every input event's timestamp is covered by some bad segment. -/
theorem groupDetections_covers (u : ℕ → ℕ) (events : List DetectionEvent)
    (D : ℚ) (hts : ∀ e ∈ events, 0 ≤ e.timestamp ∧ e.timestamp ≤ D) :
    ∀ e ∈ events, ∃ s ∈ groupDetections u events D,
      s.start ≤ e.timestamp ∧ e.timestamp ≤ s.«end» := by
  have hts' : ∀ e ∈ sortEvents events, 0 ≤ e.timestamp ∧ e.timestamp ≤ D :=
    fun e he => hts e (sortEvents_mem.mp he)
  have hpw := sortEvents_pairwise events
  intro e he
  have he' : e ∈ sortEvents events := sortEvents_mem.mpr he
  rcases hse : sortEvents events with _ | ⟨e0, rest⟩
  · rw [hse] at he'; simp at he'
  · simp only [groupDetections, hse]
    rw [hse] at hpw hts' he'
    have he0 := hts' e0 (List.mem_cons_self e0 rest)
    have hcov := groupLoop_covers u D rest 0 e0.timestamp e0.timestamp
      he0.1 le_rfl he0.2
      (fun f hf => ⟨List.rel_of_pairwise_cons hpw hf,
        (hts' f (List.mem_cons_of_mem _ hf)).2⟩)
      (List.Pairwise.of_cons hpw)
    rcases List.mem_cons.mp he' with he'' | he''
    · subst he''
      exact hcov.1 e.timestamp le_rfl le_rfl
    · exact hcov.2 e he''

/-- The geometry of `groupDetections` output is independent of the uuid
supply. -/
theorem groupDetections_geom (u v : ℕ → ℕ) (events : List DetectionEvent)
    (D : ℚ) :
    (groupDetections u events D).map geom
      = (groupDetections v events D).map geom := by
  rcases hse : sortEvents events with _ | ⟨e0, rest⟩
  · simp only [groupDetections, hse]
  · simp only [groupDetections, hse]
    exact groupLoop_geom u v D rest 0 0 e0.timestamp e0.timestamp

/-! ### Sampling-loop lemmas -/

/-- Closed form of the progress emissions: starting at time `t` with
`fc` frames already counted, the loop emits one `ProcessingProgress` per
remaining sample instant `t + i · interval`, with strictly increasing
frame counts, and each `fps` field computed by the variant's formula from
that emission's frame count and observed elapsed time. -/
theorem processLoop_progress (frame : ℚ → FrameResult)
    (fpsOf : ℕ → ℚ → Option ℚ) (elapsed : ℕ → ℚ) (total : ℕ) (D : ℚ) :
    ∀ (t : ℚ) (fc : ℕ),
      (processLoop frame fpsOf elapsed total D t fc).2
        = (List.range (⌈(D - t) * FPS_SAMPLE_RATE⌉).toNat).map
            (fun i : ℕ =>
              { processedFrames := fc + i + 1, totalFrames := total,
                fps := fpsOf (fc + i + 1) (elapsed (fc + i + 1)),
                currentTimestamp := t + (i : ℚ) * interval }) := by
  intro t fc
  induction t, fc using processLoop.induct frame fpsOf elapsed total D with
  | case1 t fc h =>
    rw [processLoop, if_pos h]
    have hc : ⌈(D - t) * FPS_SAMPLE_RATE⌉ ≤ 0 := by
      apply Int.ceil_le.mpr
      push_cast
      simp only [FPS_SAMPLE_RATE]
      nlinarith [h]
    rw [show (⌈(D - t) * FPS_SAMPLE_RATE⌉).toNat = 0 from by omega]
    simp
  | case2 t fc h fc' ih =>
    have hfc : fc' = fc + 1 := rfl
    rw [hfc] at ih
    rw [processLoop, if_neg h]
    simp only
    rw [ih]
    have hlt : t < D := lt_of_not_ge h
    have key : (D - (t + interval)) * FPS_SAMPLE_RATE
        = (D - t) * FPS_SAMPLE_RATE - 1 := by
      simp only [interval, FPS_SAMPLE_RATE]; ring
    have hpos : 0 < ⌈(D - t) * FPS_SAMPLE_RATE⌉ := by
      apply Int.ceil_pos.mpr
      simp only [FPS_SAMPLE_RATE]
      nlinarith [hlt]
    rw [key, Int.ceil_sub_one]
    rw [show (⌈(D - t) * FPS_SAMPLE_RATE⌉).toNat
        = ((⌈(D - t) * FPS_SAMPLE_RATE⌉ - 1).toNat) + 1 from by omega]
    rw [List.range_succ_eq_map]
    simp only [List.map_cons, List.map_map]
    congr 1
    · norm_num
    · apply List.map_congr_left
      intro i _
      simp only [Function.comp_apply, Nat.succ_eq_add_one]
      have harg : fc + 1 + i + 1 = fc + (i + 1) + 1 := by omega
      rw [harg]
      congr 1
      push_cast
      ring

/-- Every detection the loop resolves with comes from a sampled frame whose
matching succeeded with a correlation above the threshold; frames whose
matching threw (and was caught) contribute nothing. -/
theorem processLoop_detections_sound (frame : ℚ → FrameResult)
    (fpsOf : ℕ → ℚ → Option ℚ) (elapsed : ℕ → ℚ) (total : ℕ) (D : ℚ) :
    ∀ (t : ℚ) (fc : ℕ) (d : DetectionEvent),
      d ∈ (processLoop frame fpsOf elapsed total D t fc).1 →
      ∃ v, frame d.timestamp = FrameResult.ok v ∧ MATCH_THRESHOLD < v ∧
        d.confidence = v * 100 ∧ d.type = DetectionType.menu_hold := by
  intro t fc
  induction t, fc using processLoop.induct frame fpsOf elapsed total D with
  | case1 t fc h =>
    intro d hd
    rw [processLoop, if_pos h] at hd
    simp at hd
  | case2 t fc h fc' ih =>
    intro d hd
    rw [processLoop, if_neg h] at hd
    simp only [List.mem_append] at hd
    rcases hd with hd | hd
    · rcases hft : frame t with v | _
      · rw [hft] at hd
        by_cases hv : v > MATCH_THRESHOLD
        · simp only [frameDetections, if_pos hv, List.mem_singleton] at hd
          subst hd
          exact ⟨v, hft, hv, rfl, rfl⟩
        · simp only [frameDetections, if_neg hv, List.not_mem_nil] at hd
      · rw [hft] at hd
        simp only [frameDetections, List.not_mem_nil] at hd
    · exact ih d hd

/-- `totalLen` distributes over append. -/
theorem totalLen_append (l1 l2 : List TimeRange) :
    totalLen (l1 ++ l2) = totalLen l1 + totalLen l2 := by
  simp [totalLen]

/-- C1: for every `totalDuration > 0` and every detection set (timestamps
within `[0, totalDuration]`, the data-model invariant), the bad and keep
segments returned by `processDetections` exactly tile `[0, totalDuration]`:
every instant of `[0, totalDuration)` lies in exactly one segment (no gaps,
no overlaps), and the lengths sum to `totalDuration`. -/
theorem c1_coverage (u v : ℕ → ℕ) (events : List DetectionEvent) (D : ℚ)
    (hD : 0 < D) (hts : ∀ e ∈ events, 0 ≤ e.timestamp ∧ e.timestamp ≤ D) :
    (∀ x : ℚ, 0 ≤ x → x < D →
      ((processDetections u v events D).badSegments
        ++ (processDetections u v events D).keepSegments).countP (inSeg x) = 1)
    ∧ totalLen ((processDetections u v events D).badSegments
        ++ (processDetections u v events D).keepSegments) = D := by
  have hb := groupDetections_bounds u events D hts
  have hpw := groupDetections_pairwise u events D hts
  constructor
  · intro x h0 hxD
    simp only [processDetections, calculateKeepRanges]
    exact cover_aux v D (groupDetections u events D) 0 0 le_rfl (le_of_lt hD)
      hb hpw x h0 hxD
  · simp only [processDetections, calculateKeepRanges]
    rw [totalLen_append]
    have := sum_aux v D (groupDetections u events D) 0 0 le_rfl (le_of_lt hD)
      hb hpw
    linarith

/-- Witness for C1 at the concrete input `events = []`, `D = 1`. -/
theorem c1_coverage_witness :
    (0 < (1:ℚ))
    ∧ (∀ e ∈ ([] : List DetectionEvent), 0 ≤ e.timestamp ∧ e.timestamp ≤ (1:ℚ))
    ∧ (∀ x : ℚ, 0 ≤ x → x < 1 →
        ((processDetections (fun k => k) (fun k => k) [] 1).badSegments
          ++ (processDetections (fun k => k) (fun k => k) [] 1).keepSegments).countP
            (inSeg x) = 1)
    ∧ totalLen ((processDetections (fun k => k) (fun k => k) [] 1).badSegments
        ++ (processDetections (fun k => k) (fun k => k) [] 1).keepSegments) = 1 :=
  ⟨by norm_num, by simp,
    (c1_coverage (fun k => k) (fun k => k) [] 1 (by norm_num) (by simp)).1,
    (c1_coverage (fun k => k) (fun k => k) [] 1 (by norm_num) (by simp)).2⟩

/-- C3 counterexample: contrary to the claim, there is no input bad-segment
list at all for which `calculateKeepRanges` emits a zero-width keep
segment: both emissions are guarded by strict inequalities
(`bad.start > cursor`, `cursor < totalDuration`). -/
theorem c3_counterexample :
    ¬ ∃ (u : ℕ → ℕ) (bads : List TimeRange) (D : ℚ),
        ∃ s ∈ calculateKeepRanges u bads D, s.«end» = s.start := by
  rintro ⟨u, bads, D, s, hs, he⟩
  simp only [calculateKeepRanges] at hs
  have h := (keepRangesAux_mem u D bads 0 0 s hs).2.1
  rw [he] at h
  exact lt_irrefl _ h

/-- C3 amended: every keep segment returned by `calculateKeepRanges` has
strictly positive width; in particular when two bad segments' padded bounds
touch exactly, no keep segment (zero-width or otherwise) is emitted between
them. -/
theorem c3_amended (u : ℕ → ℕ) (bads : List TimeRange) (D : ℚ)
    (s : TimeRange) (hs : s ∈ calculateKeepRanges u bads D) :
    s.start < s.«end» := by
  simp only [calculateKeepRanges] at hs
  exact (keepRangesAux_mem u D bads 0 0 s hs).2.1

/-- Witness for the amended C3 at the concrete input `bads = []`, `D = 1`. -/
theorem c3_amended_witness :
    ({ id := 0, start := 0, «end» := 1, type := RangeType.keep } : TimeRange)
      ∈ calculateKeepRanges (fun k => k) [] 1
    ∧ (0:ℚ) < 1 := by
  have hmem : ({ id := 0, start := 0, «end» := 1, type := RangeType.keep } :
      TimeRange) ∈ calculateKeepRanges (fun k => k) [] 1 := by
    simp only [calculateKeepRanges, keepRangesAux]
    norm_num
  exact ⟨hmem, c3_amended (fun k => k) [] 1 _ hmem⟩

/-- C5: for any detection set with timestamps in `[0, totalDuration]`,
consecutive bad segments in the sorted output of the Segment Builder are
strictly separated: `A.end < B.start`.  (The proof in fact needs no
hypothesis: `MERGE_THRESHOLD = 1 > 2 · SAFETY_PADDING = 1/2`.) -/
theorem c5_nonoverlap (u : ℕ → ℕ) (events : List DetectionEvent) (D : ℚ)
    (_hts : ∀ e ∈ events, 0 ≤ e.timestamp ∧ e.timestamp ≤ D) :
    List.Chain' (fun A B => A.«end» < B.start) (groupDetections u events D) :=
  groupDetections_chain u events D

/-- Witness for C5 at events `[0, 5]` with `D = 10`. -/
theorem c5_nonoverlap_witness :
    (∀ e ∈ ([⟨0, 90, DetectionType.menu_hold⟩,
        ⟨5, 90, DetectionType.menu_hold⟩] : List DetectionEvent),
      0 ≤ e.timestamp ∧ e.timestamp ≤ (10:ℚ))
    ∧ List.Chain' (fun A B => A.«end» < B.start)
        (groupDetections (fun k => k)
          [⟨0, 90, DetectionType.menu_hold⟩,
            ⟨5, 90, DetectionType.menu_hold⟩] 10) :=
  ⟨by decide,
    c5_nonoverlap (fun k => k) _ 10 (by decide)⟩

/-- C10: every input event's timestamp (within `[0, totalDuration]`) is
contained in some bad segment emitted by the Segment Builder. -/
theorem c10_detections_covered (u : ℕ → ℕ) (events : List DetectionEvent)
    (D : ℚ) (hts : ∀ e ∈ events, 0 ≤ e.timestamp ∧ e.timestamp ≤ D)
    (e : DetectionEvent) (he : e ∈ events) :
    ∃ s ∈ groupDetections u events D,
      s.start ≤ e.timestamp ∧ e.timestamp ≤ s.«end» :=
  groupDetections_covers u events D hts e he

/-- Witness for C10 at the single event `t = 1`, `D = 10`. -/
theorem c10_detections_covered_witness :
    (∀ e ∈ ([⟨1, 90, DetectionType.menu_hold⟩] : List DetectionEvent),
      0 ≤ e.timestamp ∧ e.timestamp ≤ (10:ℚ))
    ∧ (⟨1, 90, DetectionType.menu_hold⟩ : DetectionEvent)
        ∈ ([⟨1, 90, DetectionType.menu_hold⟩] : List DetectionEvent)
    ∧ ∃ s ∈ groupDetections (fun k => k)
          [⟨1, 90, DetectionType.menu_hold⟩] 10,
        s.start ≤ (⟨1, 90, DetectionType.menu_hold⟩ : DetectionEvent).timestamp
        ∧ (⟨1, 90, DetectionType.menu_hold⟩ : DetectionEvent).timestamp ≤ s.«end» :=
  ⟨by decide, by decide,
    c10_detections_covered (fun k => k) _ 10 (by decide) _ (by decide)⟩

/-- C6: on events at `[1.0, 1.5, 5.0]` with `totalDuration = 10`,
`processDetections` returns bad segments `[(0.75, 1.75), (4.75, 5.25)]`
and keep segments `[(0, 0.75), (1.75, 4.75), (5.25, 10)]`. -/
theorem c6_example :
    ((processDetections (fun k => k) (fun k => k)
        [⟨1, 90, DetectionType.menu_hold⟩, ⟨3/2, 90, DetectionType.menu_hold⟩,
          ⟨5, 90, DetectionType.menu_hold⟩] 10).badSegments).map
        (fun s => (s.start, s.«end»))
      = [(3/4, 7/4), (19/4, 21/4)]
    ∧ ((processDetections (fun k => k) (fun k => k)
        [⟨1, 90, DetectionType.menu_hold⟩, ⟨3/2, 90, DetectionType.menu_hold⟩,
          ⟨5, 90, DetectionType.menu_hold⟩] 10).keepSegments).map
        (fun s => (s.start, s.«end»))
      = [(0, 3/4), (7/4, 19/4), (21/4, 10)] := by
  have hsorted : sortEvents
      [⟨1, 90, DetectionType.menu_hold⟩, ⟨3/2, 90, DetectionType.menu_hold⟩,
        ⟨5, 90, DetectionType.menu_hold⟩]
      = [⟨1, 90, DetectionType.menu_hold⟩, ⟨3/2, 90, DetectionType.menu_hold⟩,
          ⟨5, 90, DetectionType.menu_hold⟩] :=
    sortEvents_of_sorted (by norm_num [List.pairwise_cons])
  constructor
  · simp only [processDetections, groupDetections, hsorted]
    norm_num [groupLoop, createBadSegment, MERGE_THRESHOLD, SAFETY_PADDING]
  · simp only [processDetections, groupDetections, calculateKeepRanges, hsorted]
    norm_num [groupLoop, createBadSegment, keepRangesAux, MERGE_THRESHOLD,
      SAFETY_PADDING]

/-- C8 counterexample: two runs of the Segment Builder on the same
(already sorted) event set draw fresh opaque ids (`crypto.randomUUID()`),
so the two returned segment lists are not equal element for element: here
the two runs' supplies yield ids `0` and `1` for the same segment. -/
theorem c8_counterexample :
    groupDetections (fun _ => 0) [⟨0, 90, DetectionType.menu_hold⟩] 10
      ≠ groupDetections (fun _ => 1) [⟨0, 90, DetectionType.menu_hold⟩] 10 := by
  have h1 : sortEvents [⟨0, 90, DetectionType.menu_hold⟩]
      = [⟨0, 90, DetectionType.menu_hold⟩] :=
    sortEvents_of_sorted (by norm_num [List.pairwise_cons])
  simp only [groupDetections, h1]
  simp [groupLoop, createBadSegment]

/-- C8 amended: running the Segment Builder twice on the same (already
sorted) event set yields outputs that are identical element for element
once the opaque `id` tokens are erased; only the freshly drawn uuids can
differ between the two runs. -/
theorem c8_amended (u v : ℕ → ℕ) (events : List DetectionEvent) (D : ℚ)
    (_hsorted : events.Pairwise (fun a b => a.timestamp ≤ b.timestamp)) :
    (groupDetections u events D).map geom
      = (groupDetections v events D).map geom :=
  groupDetections_geom u v events D

/-- Witness for the amended C8 on the sorted singleton event set. -/
theorem c8_amended_witness :
    ([⟨0, 90, DetectionType.menu_hold⟩] : List DetectionEvent).Pairwise
        (fun a b => a.timestamp ≤ b.timestamp)
    ∧ (groupDetections (fun _ => 0) [⟨0, 90, DetectionType.menu_hold⟩] 10).map geom
        = (groupDetections (fun _ => 1)
            [⟨0, 90, DetectionType.menu_hold⟩] 10).map geom :=
  ⟨by decide, c8_amended (fun _ => 0) (fun _ => 1) _ 10 (by decide)⟩


/-- Closed form of the resolved detections: the loop concatenates, over the
sample instants in order, the per-frame detections. -/
theorem processLoop_detections (frame : ℚ → FrameResult)
    (fpsOf : ℕ → ℚ → Option ℚ) (elapsed : ℕ → ℚ) (total : ℕ) (D : ℚ) :
    ∀ (t : ℚ) (fc : ℕ),
      (processLoop frame fpsOf elapsed total D t fc).1
        = ((List.range (⌈(D - t) * FPS_SAMPLE_RATE⌉).toNat).map
            (fun i : ℕ => frameDetections (t + (i:ℚ) * interval)
              (frame (t + (i:ℚ) * interval)))).flatten := by
  intro t fc
  induction t, fc using processLoop.induct frame fpsOf elapsed total D with
  | case1 t fc h =>
    rw [processLoop, if_pos h]
    have hc : ⌈(D - t) * FPS_SAMPLE_RATE⌉ ≤ 0 := by
      apply Int.ceil_le.mpr
      push_cast
      simp only [FPS_SAMPLE_RATE]
      nlinarith [h]
    rw [show (⌈(D - t) * FPS_SAMPLE_RATE⌉).toNat = 0 from by omega]
    simp
  | case2 t fc h fc' ih =>
    rw [processLoop, if_neg h]
    simp only
    rw [ih]
    have hlt : t < D := lt_of_not_ge h
    have key : (D - (t + interval)) * FPS_SAMPLE_RATE
        = (D - t) * FPS_SAMPLE_RATE - 1 := by
      simp only [interval, FPS_SAMPLE_RATE]; ring
    have hpos : 0 < ⌈(D - t) * FPS_SAMPLE_RATE⌉ := by
      apply Int.ceil_pos.mpr
      simp only [FPS_SAMPLE_RATE]
      nlinarith [hlt]
    rw [key, Int.ceil_sub_one]
    rw [show (⌈(D - t) * FPS_SAMPLE_RATE⌉).toNat
        = ((⌈(D - t) * FPS_SAMPLE_RATE⌉ - 1).toNat) + 1 from by omega]
    rw [List.range_succ_eq_map]
    simp only [List.map_cons, List.flatten_cons, List.map_map]
    congr 1
    · norm_num
    · congr 1
      apply List.map_congr_left
      intro i _
      simp only [Function.comp_apply, Nat.succ_eq_add_one]
      push_cast
      rw [show t + interval + (i:ℚ) * interval
          = t + ((i:ℚ) + 1) * interval from by ring]

/-- C2 counterexample: a run whose first sampled frame's matching throws
(the error is caught and swallowed) still resolves successfully, with the
detection found at the second sampled frame — the failure neither aborts
the run nor discards the other detections. -/
theorem c2_counterexample :
    analyzeVideo none
        (fun t => if t = 0 then FrameResult.error else FrameResult.ok (9/10))
        fpsTemplate (fun _ => 1) 1
      = Except.ok [⟨1/2, 90, DetectionType.menu_hold⟩]
    ∧ (fun t => if t = 0 then FrameResult.error else FrameResult.ok (9/10))
        (0:ℚ) = FrameResult.error := by
  constructor
  · simp only [analyzeVideo]
    rw [processLoop_detections]
    have hc : (⌈((1:ℚ) - 0) * FPS_SAMPLE_RATE⌉).toNat = 2 := by
      have h : ⌈((1:ℚ) - 0) * FPS_SAMPLE_RATE⌉ = 2 := by
        norm_num [FPS_SAMPLE_RATE]
      rw [h]; rfl
    rw [hc]
    norm_num [List.range_succ, frameDetections, interval, FPS_SAMPLE_RATE,
      MATCH_THRESHOLD]
  · norm_num

/-- C2 amended: setup failures (reference image, canvas context, video
load) reject the whole run with one terminal error; per-frame matching
failures are caught and skipped, the run still resolves, and every
returned detection stems from a frame whose matching succeeded above the
threshold. -/
theorem c2_amended (frame : ℚ → FrameResult) (fpsOf : ℕ → ℚ → Option ℚ)
    (elapsed : ℕ → ℚ) (D : ℚ) (err : AnalysisError) (d : DetectionEvent)
    (hd : d ∈ (processLoop frame fpsOf elapsed
      (⌊D * FPS_SAMPLE_RATE⌋).toNat D 0 0).1) :
    analyzeVideo (some err) frame fpsOf elapsed D = Except.error err
    ∧ analyzeVideo none frame fpsOf elapsed D
        = Except.ok (processLoop frame fpsOf elapsed
            (⌊D * FPS_SAMPLE_RATE⌋).toNat D 0 0).1
    ∧ ∃ v, frame d.timestamp = FrameResult.ok v ∧ MATCH_THRESHOLD < v ∧
        d.confidence = v * 100 :=
  ⟨rfl, rfl,
    (processLoop_detections_sound frame fpsOf elapsed
        (⌊D * FPS_SAMPLE_RATE⌋).toNat D 0 0 d hd).imp
      (fun _v hv => ⟨hv.1, hv.2.1, hv.2.2.1⟩)⟩

/-- Witness for the amended C2: a run of duration `1/2` whose only frame
matches with correlation `0.9`. -/
theorem c2_amended_witness :
    ((⟨0, 90, DetectionType.menu_hold⟩ : DetectionEvent)
      ∈ (processLoop (fun _ => FrameResult.ok (9/10)) fpsTemplate (fun _ => 1)
          (⌊(1/2 : ℚ) * FPS_SAMPLE_RATE⌋).toNat (1/2) 0 0).1)
    ∧ (analyzeVideo (some AnalysisError.videoLoadError)
          (fun _ => FrameResult.ok (9/10)) fpsTemplate (fun _ => 1) (1/2)
        = Except.error AnalysisError.videoLoadError
      ∧ analyzeVideo none (fun _ => FrameResult.ok (9/10)) fpsTemplate
          (fun _ => 1) (1/2)
        = Except.ok (processLoop (fun _ => FrameResult.ok (9/10)) fpsTemplate
            (fun _ => 1) (⌊(1/2:ℚ) * FPS_SAMPLE_RATE⌋).toNat (1/2) 0 0).1
      ∧ ∃ v, (fun _ => FrameResult.ok (9/10))
            ((⟨0, 90, DetectionType.menu_hold⟩ : DetectionEvent).timestamp)
          = FrameResult.ok v
        ∧ MATCH_THRESHOLD < v
        ∧ (⟨0, 90, DetectionType.menu_hold⟩ :
            DetectionEvent).confidence = v * 100) := by
  have hd : (⟨0, 90, DetectionType.menu_hold⟩ : DetectionEvent)
      ∈ (processLoop (fun _ => FrameResult.ok (9/10)) fpsTemplate (fun _ => 1)
          (⌊(1/2 : ℚ) * FPS_SAMPLE_RATE⌋).toNat (1/2) 0 0).1 := by
    rw [processLoop_detections]
    have hc : (⌈((1/2:ℚ) - 0) * FPS_SAMPLE_RATE⌉).toNat = 1 := by
      have h : ⌈((1/2:ℚ) - 0) * FPS_SAMPLE_RATE⌉ = 1 := by
        norm_num [FPS_SAMPLE_RATE]
      rw [h]; rfl
    rw [hc]
    norm_num [List.range_succ, frameDetections, interval, FPS_SAMPLE_RATE,
      MATCH_THRESHOLD]
  exact ⟨hd, c2_amended (fun _ => FrameResult.ok (9/10)) fpsTemplate
    (fun _ => 1) (1/2) AnalysisError.videoLoadError _ hd⟩

/-- C4 counterexample: with duration `D = 2` (so `D · R = 4` is an
integer) the loop samples only `[0, 0.5, 1, 1.5]` — four frames, not
`⌊D·R⌋ + 1 = 5`, and the instant `t = D = 2` is never sampled. -/
theorem c4_counterexample :
    ((processLoop (fun _ => FrameResult.error) fpsTemplate (fun _ => 0)
        4 2 0 0).2.map (fun p => p.currentTimestamp)) = [0, 1/2, 1, 3/2]
    ∧ (⌊(2:ℚ) * FPS_SAMPLE_RATE⌋.toNat + 1 = 5)
    ∧ (2:ℚ) ∉ ([0, 1/2, 1, 3/2] : List ℚ)
    ∧ ([0, 1/2, 1, 3/2] : List ℚ).length = 4 := by
  refine ⟨?_, ?_, by norm_num [List.mem_cons], rfl⟩
  · rw [processLoop_progress, List.map_map]
    have h4 : (⌈((2:ℚ) - 0) * FPS_SAMPLE_RATE⌉).toNat = 4 := by
      have h : ⌈((2:ℚ) - 0) * FPS_SAMPLE_RATE⌉ = 4 := by
        norm_num [FPS_SAMPLE_RATE]
      rw [h]; rfl
    rw [h4]
    norm_num [List.range_succ, interval, FPS_SAMPLE_RATE]
  · have h : ⌊(2:ℚ) * FPS_SAMPLE_RATE⌋ = 4 := by norm_num [FPS_SAMPLE_RATE]
    rw [h]
    rfl

/-- C4 amended: the loop samples exactly the instants `t_i = i / R` for
`i = 0 … ⌈D·R⌉ − 1`, i.e. `⌈D·R⌉` frames; when `D·R` is an integer this is
`D·R` frames ending at `D − 1/R`, so the instant `t = D` itself is never
sampled. -/
theorem c4_amended (frame : ℚ → FrameResult) (fpsOf : ℕ → ℚ → Option ℚ)
    (elapsed : ℕ → ℚ) (total : ℕ) (D : ℚ) :
    ((processLoop frame fpsOf elapsed total D 0 0).2.map
        (fun p => p.currentTimestamp))
      = (List.range (⌈D * FPS_SAMPLE_RATE⌉).toNat).map
          (fun i : ℕ => (i : ℚ) / FPS_SAMPLE_RATE) := by
  rw [processLoop_progress, List.map_map]
  rw [show D - 0 = D from by ring]
  apply List.map_congr_left
  intro i _
  simp only [Function.comp_apply]
  norm_num [interval, FPS_SAMPLE_RATE]
  ring

/-- C7 counterexample: in the template-matching variant an emission whose
elapsed wall-clock time is `0` reports a non-finite fps (`none`), not `0`;
and in the HSV variant the third emission with elapsed `2` s reports
`round(3/2) = 2`, not the exact throughput `3/2` — the reported value is
rounded, and only the HSV variant clamps. -/
theorem c7_counterexample :
    ((processLoop (fun _ => FrameResult.error) fpsTemplate (fun _ => 0)
        2 1 0 0).2.map (fun p => p.fps)) = [none, none]
    ∧ ((none : Option ℚ) ≠ some 0)
    ∧ ((processLoop (fun _ => FrameResult.error) fpsHSV (fun _ => 2)
        3 (3/2) 0 0).2.map (fun p => (p.processedFrames, p.fps)))
      = [(1, some 1), (2, some 1), (3, some 2)]
    ∧ ((3:ℚ) / 2 ≠ 2) := by
  refine ⟨?_, by simp, ?_, by norm_num⟩
  · rw [processLoop_progress, List.map_map]
    have h2 : (⌈((1:ℚ) - 0) * FPS_SAMPLE_RATE⌉).toNat = 2 := by
      have h : ⌈((1:ℚ) - 0) * FPS_SAMPLE_RATE⌉ = 2 := by
        norm_num [FPS_SAMPLE_RATE]
      rw [h]; rfl
    rw [h2]
    norm_num [List.range_succ, fpsTemplate]
  · rw [processLoop_progress, List.map_map]
    have h3 : (⌈((3:ℚ)/2 - 0) * FPS_SAMPLE_RATE⌉).toNat = 3 := by
      have h : ⌈((3:ℚ)/2 - 0) * FPS_SAMPLE_RATE⌉ = 3 := by
        norm_num [FPS_SAMPLE_RATE]
      rw [h]; rfl
    rw [h3]
    norm_num [List.range_succ, fpsHSV, jsRound]

/-- C7 amended: every emission's fps field is the variant's formula applied
to that emission's frame count and observed elapsed time; the HSV variant
reports `round(processedFrames/elapsed)` clamped to `0` when elapsed is not
positive (always a finite value), while the template variant reports
`round(processedFrames/elapsed)` unguarded, which is non-finite (`none`)
when elapsed is `0`. -/
theorem c7_amended (frame : ℚ → FrameResult) (fpsOf : ℕ → ℚ → Option ℚ)
    (elapsed : ℕ → ℚ) (total : ℕ) (D t : ℚ) (fc : ℕ) :
    ((processLoop frame fpsOf elapsed total D t fc).2.map (fun p => p.fps)
      = (processLoop frame fpsOf elapsed total D t fc).2.map
          (fun p => fpsOf p.processedFrames (elapsed p.processedFrames)))
    ∧ (∀ (k : ℕ) (e : ℚ), fpsHSV k e
        = some (if 0 < e then ((jsRound ((k : ℚ) / e)) : ℚ) else 0))
    ∧ (∀ (k : ℕ) (e : ℚ), fpsTemplate k e
        = if e = 0 then none else some ((jsRound ((k : ℚ) / e)) : ℚ)) := by
  refine ⟨?_, ?_, fun k e => rfl⟩
  · rw [processLoop_progress, List.map_map, List.map_map]
    apply List.map_congr_left
    intro i _
    rfl
  · intro k e
    by_cases h : (0:ℚ) < e
    · simp only [fpsHSV, gt_iff_lt, if_pos h]
    · simp only [fpsHSV, gt_iff_lt, if_neg h]

/-- C9: within one run the `processedFrames` and `currentTimestamp` of
successive `ProcessingProgress` emissions are strictly increasing. -/
theorem c9_monotonic (frame : ℚ → FrameResult) (fpsOf : ℕ → ℚ → Option ℚ)
    (elapsed : ℕ → ℚ) (total : ℕ) (D t : ℚ) (fc : ℕ) :
    List.Chain' (fun p q => p.processedFrames < q.processedFrames
      ∧ p.currentTimestamp < q.currentTimestamp)
      ((processLoop frame fpsOf elapsed total D t fc).2) := by
  rw [processLoop_progress]
  rw [List.chain'_map]
  apply List.Pairwise.chain'
  apply List.Pairwise.imp ?_ (List.pairwise_lt_range _)
  intro i j hij
  refine ⟨?_, ?_⟩
  · show fc + i + 1 < fc + j + 1
    omega
  · show t + (i:ℚ) * interval < t + (j:ℚ) * interval
    have hc : (i:ℚ) < (j:ℚ) := by exact_mod_cast hij
    have hi : (0:ℚ) < interval := by norm_num [interval, FPS_SAMPLE_RATE]
    have hmul := mul_lt_mul_of_pos_right hc hi
    linarith
